import Mathlib

/-!
Verification development for the Asteroids typing game.

The definitions in this file are a shallow embedding of the JavaScript source:
* `TypingEngine` (the typing-input resolution engine): state, addTarget,
  removeTarget, processKey, backspace, resetState, together with the event
  trace each call emits via `_emit`.
* `ScoreManager`: handleWordComplete, handleMistake, getWPM, getAccuracy,
  getSessionStats.
* `DifficultyManager`: getSpawnInterval, getEnemySpeed.

Words and the keyboard buffer are `List Char` (JS strings of word characters);
target ids are `String`; the JS `Map` of targets is an association list in
insertion order, with `Map.set` / `Map.delete` / `Map.get` semantics.
-/

namespace Asteroids

/-- One registered target: `addTarget` stores the lowercased matching word and
the original word (`{ word: word.toLowerCase(), originalWord: word }`). -/
structure Target where
  word : List Char
  originalWord : List Char
deriving DecidableEq

/-- The mutable state of the `TypingEngine` class: the targets map, the
locked target id (`currentTargetId`), `currentIndex` and `buffer`. -/
structure EngineState where
  targets : List (String × Target)
  currentTargetId : Option String
  currentIndex : Nat
  buffer : List Char
deriving DecidableEq

/-- Events the engine emits through `_emit` during one call. -/
inductive Ev where
  | onLock (id : String)
  | onProgress (id : String) (idx : Nat) (ch : Option Char)
  | onMistake (ch : Char)
  | onComplete (id : String) (originalWord : List Char)
  | onReset
  | onCandidates (ids : List String) (buffer : List Char)
deriving DecidableEq

/-- The constructor's initial state: empty map, no lock, index 0, empty buffer. -/
def initEngine : EngineState := ⟨[], none, 0, []⟩

/-- JS `Map.set`: replace in place if the key exists, else append. -/
def mapSet (m : List (String × Target)) (k : String) (v : Target) :
    List (String × Target) :=
  if m.any (fun p => p.1 = k) then
    m.map (fun p => if p.1 = k then (k, v) else p)
  else m ++ [(k, v)]

/-- JS `Map.delete`: drop the entry with the given key. -/
def mapDelete (m : List (String × Target)) (k : String) :
    List (String × Target) :=
  m.filter (fun p => p.1 ≠ k)

/-- JS `Map.get`: the value stored at the key, if any. -/
def mapGet (m : List (String × Target)) (k : String) : Option Target :=
  (m.find? (fun p => p.1 = k)).map Prod.snd

/-- `addTarget(id, word)`: no-op on an empty (falsy) word, else insert the
target with the word lowercased for matching. -/
def addTarget (s : EngineState) (id : String) (word : List Char) : EngineState :=
  if word = [] then s
  else { s with targets := mapSet s.targets id ⟨word.map Char.toLower, word⟩ }

/-- `resetState()`: clear lock, index and buffer, emit `onReset`. -/
def resetState (s : EngineState) : EngineState × List Ev :=
  ({ s with currentTargetId := none, currentIndex := 0, buffer := [] },
   [.onReset])

/-- `removeTarget(id)`: if the removed target is the locked one, reset first
(emitting `onReset`), then delete the map entry. -/
def removeTarget (s : EngineState) (id : String) : EngineState × List Ev :=
  let r := if s.currentTargetId = some id then resetState s else (s, [])
  ({ r.1 with targets := mapDelete r.1.targets id }, r.2)

/-- The candidate entries of the targets map: those whose word starts with the
buffer (`data.word.startsWith(this.buffer)`). -/
def candidates (targets : List (String × Target)) (buf : List Char) :
    List (String × Target) :=
  targets.filter (fun p => buf.isPrefixOf p.2.word)

/-- `processKey(key)`: ignore anything but a single alphabetic character
(after lowercasing, the regex `^[a-z]$`), append the character to the buffer,
recompute candidates, then: zero candidates → `onMistake` + full reset;
one candidate → lock, progress, and on reaching the word's full length
`onComplete` followed by `removeTarget` and `resetState`; two or more →
`onCandidates` with the lock left untouched. -/
def processKey (s : EngineState) (key : Char) : EngineState × List Ev :=
  let ch := key.toLower
  if 'a' ≤ ch ∧ ch ≤ 'z' then
    let buf := s.buffer ++ [ch]
    match candidates s.targets buf with
    | [] =>
        let r := resetState { s with buffer := buf }
        (r.1, .onMistake ch :: r.2)
    | [(id, t)] =>
        let s1 : EngineState :=
          { s with buffer := buf, currentTargetId := some id,
                   currentIndex := buf.length }
        let evs : List Ev := [.onLock id, .onProgress id buf.length (some ch)]
        if t.word.length ≤ buf.length then
          let r2 := removeTarget s1 id
          let r3 := resetState r2.1
          (r3.1, evs ++ [.onComplete id t.originalWord] ++ r2.2 ++ r3.2)
        else (s1, evs)
    | p :: q :: rest =>
        ({ s with buffer := buf },
         [.onCandidates ((p :: q :: rest).map Prod.fst) buf])
  else (s, [])

/-- `backspace()`: no-op on an empty buffer; otherwise drop the last buffer
character and recompute candidates: one candidate → re-lock (progress char is
`null`), with possible immediate completion; two or more → clear the lock and
emit `onCandidates`; zero → full reset with no mistake. -/
def backspace (s : EngineState) : EngineState × List Ev :=
  if s.buffer = [] then (s, [])
  else
    let buf := s.buffer.dropLast
    match candidates s.targets buf with
    | [(id, t)] =>
        let s1 : EngineState :=
          { s with buffer := buf, currentTargetId := some id,
                   currentIndex := buf.length }
        let evs : List Ev := [.onLock id, .onProgress id buf.length none]
        if t.word.length ≤ buf.length then
          let r2 := removeTarget s1 id
          let r3 := resetState r2.1
          (r3.1, evs ++ [.onComplete id t.originalWord] ++ r2.2 ++ r3.2)
        else (s1, evs)
    | p :: q :: rest =>
        ({ s with buffer := buf, currentTargetId := none, currentIndex := 0 },
         [.onCandidates ((p :: q :: rest).map Prod.fst) buf])
    | [] =>
        let r := resetState { s with buffer := buf }
        (r.1, r.2)

/-- One external call to the engine. -/
inductive EOp where
  | add (id : String) (word : List Char)
  | remove (id : String)
  | key (c : Char)
  | back
  | reset
deriving DecidableEq

/-- Apply one call, discarding the emitted events. -/
def applyOp (s : EngineState) (op : EOp) : EngineState :=
  match op with
  | .add id w => addTarget s id w
  | .remove id => (removeTarget s id).1
  | .key c => (processKey s c).1
  | .back => (backspace s).1
  | .reset => (resetState s).1

/-- Run a sequence of calls from a starting state. -/
def runOps (s : EngineState) (ops : List EOp) : EngineState :=
  ops.foldl applyOp s

/-! ### ScoreManager (`src/unnamed/part_008`)

Counters are natural numbers (the JS values are non-negative integers);
timestamps and the intermediate point computation are rationals, so that
`Math.floor` and `Math.round` are `Int.floor` and `round`. -/

/-- The mutable state of the `ScoreManager` class. -/
structure ScoreState where
  score : ℕ
  streak : ℕ
  multiplier : ℕ
  wordsTyped : ℕ
  charsTyped : ℕ
  mistakes : ℕ
  startTime : ℚ
  endTime : Option ℚ
deriving DecidableEq

/-- `reset()`: zero every counter, multiplier 1, record the current time. -/
def resetScore (now : ℚ) : ScoreState := ⟨0, 0, 1, 0, 0, 0, now, none⟩

/-- `_getDifficultyMultiplier`: hard → 2.0, moderate → 1.5, default → 1.0. -/
def getDifficultyMultiplier (difficulty : String) : ℚ :=
  if difficulty = "hard" then 2
  else if difficulty = "moderate" then 3 / 2
  else 1

/-- `_increaseStreak()`: increment streak, recompute
`multiplier = 1 + Math.floor(streak / 5)`, capped at 5. -/
def increaseStreak (s : ScoreState) : ScoreState :=
  let streak := s.streak + 1
  let m := 1 + streak / 5
  { s with streak := streak, multiplier := if m > 5 then 5 else m }

/-- `handleWordComplete(word, difficulty)`: award
`Math.floor(word.length * 10 * difficultyBonus * multiplier)` points, bump the
words/chars counters, then increase the streak; returns the points awarded. -/
def handleWordComplete (s : ScoreState) (word : String) (difficulty : String) :
    ScoreState × ℕ :=
  let basePoints := word.length * 10
  let difficultyBonus := getDifficultyMultiplier difficulty
  let points := (⌊((basePoints : ℚ) * difficultyBonus) * (s.multiplier : ℚ)⌋).toNat
  let s1 := { s with score := s.score + points,
                     wordsTyped := s.wordsTyped + 1,
                     charsTyped := s.charsTyped + word.length }
  (increaseStreak s1, points)

/-- `handleMistake()`: count the mistake, zero the streak, multiplier back
to 1; the score is untouched. -/
def handleMistake (s : ScoreState) : ScoreState :=
  { s with mistakes := s.mistakes + 1, streak := 0, multiplier := 1 }

/-- `getWPM()`: standard five-characters-per-word rate, 0 if no time elapsed. -/
def getWPM (s : ScoreState) (now : ℚ) : ℤ :=
  let timeNow := s.endTime.getD now
  let minutes := (timeNow - s.startTime) / 60000
  if minutes ≤ 0 then 0 else round (((s.charsTyped : ℚ) / 5) / minutes)

/-- `getAccuracy()`: percentage with two decimals, 100 with no keystrokes. -/
def getAccuracy (s : ScoreState) : ℚ :=
  let totalKeystrokes := s.charsTyped + s.mistakes
  if totalKeystrokes = 0 then 100
  else (round (((s.charsTyped : ℚ) / (totalKeystrokes : ℚ)) * 10000) : ℚ) / 100

/-- The record returned by `getSessionStats()` (the JS `durationSeconds` is a
one-decimal string; here it is the underlying elapsed-seconds value). -/
structure SessionStats where
  score : ℕ
  maxStreak : ℕ
  wpm : ℤ
  accuracy : ℚ
  wordsTyped : ℕ
  mistakes : ℕ
  durationSeconds : ℚ
deriving DecidableEq

/-- `getSessionStats()`: `maxStreak` is the current `this.streak`. -/
def getSessionStats (s : ScoreState) (now : ℚ) : SessionStats :=
  ⟨s.score, s.streak, getWPM s now, getAccuracy s, s.wordsTyped, s.mistakes,
   (now - s.startTime) / 1000⟩

/-! ### DifficultyManager (`src/frontend/src/game/DifficultyManager.js`) -/

/-- The `config` object set up by `DifficultyManager.reset()`. -/
structure DifficultyConfig where
  baseSpawnInterval : ℚ
  minSpawnInterval : ℚ
  baseEnemySpeed : ℚ
  speedIncrement : ℚ
  intervalDecrement : ℚ
  wordsPerLevel : ℕ
deriving DecidableEq

/-- The source's configuration constants. -/
def defaultConfig : DifficultyConfig := ⟨2500, 600, 1, 1 / 10, 50, 5⟩

/-- `getSpawnInterval()`: `Math.max(base − (level−1)·decrement, min)`. -/
def getSpawnInterval (cfg : DifficultyConfig) (level : ℕ) : ℚ :=
  let reduction := ((level : ℚ) - 1) * cfg.intervalDecrement
  let interval := cfg.baseSpawnInterval - reduction
  max interval cfg.minSpawnInterval

/-- `getEnemySpeed()`: `base + (level−1)·increment`. -/
def getEnemySpeed (cfg : DifficultyConfig) (level : ℕ) : ℚ :=
  cfg.baseEnemySpeed + ((level : ℚ) - 1) * cfg.speedIncrement

/-! ### Basic lemmas about the targets map and the candidate set -/

open List

theorem mem_candidates {targets : List (String × Target)} {buf : List Char}
    {p : String × Target} :
    p ∈ candidates targets buf ↔ p ∈ targets ∧ buf <+: p.2.word := by
  simp [candidates, List.mem_filter, List.isPrefixOf_iff_prefix]

theorem candidates_sublist (targets : List (String × Target)) (buf : List Char) :
    candidates targets buf <+ targets :=
  List.filter_sublist targets

theorem mem_mapDelete {m : List (String × Target)} {k : String}
    {p : String × Target} :
    p ∈ mapDelete m k ↔ p ∈ m ∧ p.1 ≠ k := by
  simp [mapDelete, List.mem_filter]

theorem keys_mapSet (m : List (String × Target)) (k : String) (v : Target) :
    (mapSet m k v).map Prod.fst =
      if m.any (fun p => p.1 = k) then m.map Prod.fst
      else m.map Prod.fst ++ [k] := by
  unfold mapSet
  split
  · rw [List.map_map]
    refine List.map_congr_left fun p _ => ?_
    by_cases h : p.1 = k <;> simp [h, Function.comp]
  · simp

theorem keysNodup_mapSet {m : List (String × Target)} (k : String) (v : Target)
    (h : (m.map Prod.fst).Nodup) : ((mapSet m k v).map Prod.fst).Nodup := by
  rw [keys_mapSet]
  split
  · exact h
  · rename_i hany
    simp only [List.any_eq_true, decide_eq_true_eq, not_exists] at hany
    refine List.Nodup.append h (List.nodup_singleton k) ?_
    intro a ha hb
    rcases List.mem_singleton.1 hb
    obtain ⟨p, hp, rfl⟩ := List.mem_map.1 ha
    exact hany p ⟨hp, rfl⟩

theorem keysNodup_mapDelete {m : List (String × Target)} (k : String)
    (h : (m.map Prod.fst).Nodup) : ((mapDelete m k).map Prod.fst).Nodup :=
  h.sublist ((List.filter_sublist m).map Prod.fst)

theorem keysNodup_candidates {targets : List (String × Target)} {buf : List Char}
    (h : (targets.map Prod.fst).Nodup) :
    ((candidates targets buf).map Prod.fst).Nodup :=
  h.sublist ((candidates_sublist targets buf).map Prod.fst)

theorem mapGet_mapDelete (m : List (String × Target)) (k : String) :
    mapGet (mapDelete m k) k = none := by
  unfold mapGet mapDelete
  rw [Option.map_eq_none', List.find?_eq_none]
  intro p hp
  simp only [List.mem_filter, decide_eq_true_eq] at hp
  simp [hp.2]

theorem mem_keysNodup_eq {m : List (String × Target)}
    (h : (m.map Prod.fst).Nodup) {k : String} {a b : Target}
    (ha : (k, a) ∈ m) (hb : (k, b) ∈ m) : a = b := by
  induction m with
  | nil => cases ha
  | cons p rest ih =>
    obtain ⟨pk, pv⟩ := p
    simp only [List.map_cons, List.nodup_cons] at h
    rcases List.mem_cons.1 ha with h1 | ha'
    · rcases List.mem_cons.1 hb with h2 | hb'
      · simp only [Prod.mk.injEq] at h1 h2
        rw [h1.2, h2.2]
      · exfalso
        simp only [Prod.mk.injEq] at h1
        apply h.1
        rw [← h1.1]
        exact List.mem_map.2 ⟨(k, b), hb', rfl⟩
    · rcases List.mem_cons.1 hb with h2 | hb'
      · exfalso
        simp only [Prod.mk.injEq] at h2
        apply h.1
        rw [← h2.1]
        exact List.mem_map.2 ⟨(k, a), ha', rfl⟩
      · exact ih h.2 ha' hb'

theorem nodup_all_eq_singleton {l : List String} {a : String}
    (hne : l ≠ []) (hnd : l.Nodup) (hall : ∀ x ∈ l, x = a) : l = [a] := by
  match l, hne with
  | x :: rest, _ =>
    have hx : x = a := hall x (List.mem_cons_self ..)
    subst hx
    cases rest with
    | nil => rfl
    | cons y tail =>
      exfalso
      have hy : y = x := hall y (by simp)
      simp only [List.nodup_cons] at hnd
      exact hnd.1 (hy ▸ List.mem_cons_self ..)

/-! ### Branch equations for `processKey` and `backspace` -/

theorem processKey_not_alpha {s : EngineState} {key : Char}
    (h : ¬('a' ≤ key.toLower ∧ key.toLower ≤ 'z')) :
    processKey s key = (s, []) := by
  simp [processKey, h]

theorem processKey_nil {s : EngineState} {key : Char}
    (halpha : 'a' ≤ key.toLower ∧ key.toLower ≤ 'z')
    (hc : candidates s.targets (s.buffer ++ [key.toLower]) = []) :
    processKey s key =
      (⟨s.targets, none, 0, []⟩, [.onMistake key.toLower, .onReset]) := by
  simp [processKey, halpha, hc, resetState]

theorem processKey_single {s : EngineState} {key : Char} {id : String}
    {t : Target}
    (halpha : 'a' ≤ key.toLower ∧ key.toLower ≤ 'z')
    (hc : candidates s.targets (s.buffer ++ [key.toLower]) = [(id, t)])
    (hlen : ¬ t.word.length ≤ (s.buffer ++ [key.toLower]).length) :
    processKey s key =
      (⟨s.targets, some id, (s.buffer ++ [key.toLower]).length,
        s.buffer ++ [key.toLower]⟩,
       [.onLock id,
        .onProgress id (s.buffer ++ [key.toLower]).length (some key.toLower)]) := by
  simp [processKey, halpha, hc, hlen]
  simp only [List.length_append, List.length_cons, List.length_nil] at hlen
  omega

theorem processKey_completion {s : EngineState} {key : Char} {id : String}
    {t : Target}
    (halpha : 'a' ≤ key.toLower ∧ key.toLower ≤ 'z')
    (hc : candidates s.targets (s.buffer ++ [key.toLower]) = [(id, t)])
    (hlen : t.word.length ≤ (s.buffer ++ [key.toLower]).length) :
    processKey s key =
      (⟨mapDelete s.targets id, none, 0, []⟩,
       [.onLock id,
        .onProgress id (s.buffer ++ [key.toLower]).length (some key.toLower),
        .onComplete id t.originalWord, .onReset, .onReset]) := by
  simp [processKey, halpha, hc, hlen, removeTarget, resetState]
  simp only [List.length_append, List.length_cons, List.length_nil] at hlen
  omega

theorem processKey_multi {s : EngineState} {key : Char}
    {p q : String × Target} {rest : List (String × Target)}
    (halpha : 'a' ≤ key.toLower ∧ key.toLower ≤ 'z')
    (hc : candidates s.targets (s.buffer ++ [key.toLower]) = p :: q :: rest) :
    processKey s key =
      (⟨s.targets, s.currentTargetId, s.currentIndex,
        s.buffer ++ [key.toLower]⟩,
       [.onCandidates ((p :: q :: rest).map Prod.fst)
          (s.buffer ++ [key.toLower])]) := by
  simp [processKey, halpha, hc]

theorem backspace_empty {s : EngineState} (h : s.buffer = []) :
    backspace s = (s, []) := by
  simp [backspace, h]

theorem backspace_nil {s : EngineState} (hne : s.buffer ≠ [])
    (hc : candidates s.targets s.buffer.dropLast = []) :
    backspace s = (⟨s.targets, none, 0, []⟩, [.onReset]) := by
  simp [backspace, hne, hc, resetState]

theorem backspace_single {s : EngineState} {id : String} {t : Target}
    (hne : s.buffer ≠ [])
    (hc : candidates s.targets s.buffer.dropLast = [(id, t)])
    (hlen : ¬ t.word.length ≤ s.buffer.dropLast.length) :
    backspace s =
      (⟨s.targets, some id, s.buffer.dropLast.length, s.buffer.dropLast⟩,
       [.onLock id, .onProgress id s.buffer.dropLast.length none]) := by
  simp [backspace, hne, hc, hlen]
  simp only [List.length_dropLast] at hlen
  omega

theorem backspace_completion {s : EngineState} {id : String} {t : Target}
    (hne : s.buffer ≠ [])
    (hc : candidates s.targets s.buffer.dropLast = [(id, t)])
    (hlen : t.word.length ≤ s.buffer.dropLast.length) :
    backspace s =
      (⟨mapDelete s.targets id, none, 0, []⟩,
       [.onLock id, .onProgress id s.buffer.dropLast.length none,
        .onComplete id t.originalWord, .onReset, .onReset]) := by
  simp [backspace, hne, hc, hlen, removeTarget, resetState]
  simp only [List.length_dropLast] at hlen
  omega

theorem backspace_multi {s : EngineState} {p q : String × Target}
    {rest : List (String × Target)} (hne : s.buffer ≠ [])
    (hc : candidates s.targets s.buffer.dropLast = p :: q :: rest) :
    backspace s =
      (⟨s.targets, none, 0, s.buffer.dropLast⟩,
       [.onCandidates ((p :: q :: rest).map Prod.fst) s.buffer.dropLast]) := by
  simp [backspace, hne, hc]

/-! ### The lock invariant

`processKey`'s two-or-more-candidates branch leaves `currentTargetId`
untouched, so a lock can go stale when `addTarget` registers new matching
targets while a lock is held.  Under sequences that call `addTarget` only
while unlocked, the invariant below holds: the locked target is live, the
buffer is a prefix of its word, and it is the unique candidate. -/

/-- The targets map has no duplicate ids (JS `Map` key uniqueness). -/
def KeysNodup (s : EngineState) : Prop := (s.targets.map Prod.fst).Nodup

/-- When a target is locked it is live, the buffer is a prefix of its word,
and it is the only live target whose word starts with the buffer. -/
def LockInv (s : EngineState) : Prop :=
  ∀ L, s.currentTargetId = some L →
    ∃ t, (L, t) ∈ s.targets ∧ s.buffer <+: t.word ∧
      ∀ p ∈ s.targets, s.buffer <+: p.2.word → p.1 = L

/-- States reachable from the initial engine state when `addTarget` is called
only while no target is locked; the other calls are unrestricted. -/
inductive ReachableR : EngineState → Prop where
  | init : ReachableR initEngine
  | add {s : EngineState} (id : String) (word : List Char) : ReachableR s →
      s.currentTargetId = none → ReachableR (addTarget s id word)
  | remove {s : EngineState} (id : String) : ReachableR s →
      ReachableR (removeTarget s id).1
  | key {s : EngineState} (c : Char) : ReachableR s →
      ReachableR (processKey s c).1
  | back {s : EngineState} : ReachableR s → ReachableR (backspace s).1
  | reset {s : EngineState} : ReachableR s → ReachableR (resetState s).1

theorem lockInv_of_none {s : EngineState} (h : s.currentTargetId = none) :
    LockInv s := by
  intro L hL
  rw [h] at hL
  cases hL

theorem removeTarget_of_locked {s : EngineState} {id : String}
    (h : s.currentTargetId = some id) :
    removeTarget s id = (⟨mapDelete s.targets id, none, 0, []⟩, [.onReset]) := by
  simp [removeTarget, h, resetState]

theorem removeTarget_of_not_locked {s : EngineState} {id : String}
    (h : ¬ s.currentTargetId = some id) :
    removeTarget s id =
      (⟨mapDelete s.targets id, s.currentTargetId, s.currentIndex, s.buffer⟩,
       []) := by
  simp [removeTarget, h]

theorem good_add {s : EngineState} (id : String) (word : List Char)
    (ih : KeysNodup s ∧ LockInv s) (hlock : s.currentTargetId = none) :
    KeysNodup (addTarget s id word) ∧ LockInv (addTarget s id word) := by
  unfold addTarget
  split
  · exact ih
  · exact ⟨keysNodup_mapSet id _ ih.1, lockInv_of_none hlock⟩

theorem good_remove {s : EngineState} (id : String)
    (ih : KeysNodup s ∧ LockInv s) :
    KeysNodup (removeTarget s id).1 ∧ LockInv (removeTarget s id).1 := by
  obtain ⟨hnd, hinv⟩ := ih
  by_cases hl : s.currentTargetId = some id
  · rw [removeTarget_of_locked hl]
    exact ⟨keysNodup_mapDelete id hnd, lockInv_of_none rfl⟩
  · rw [removeTarget_of_not_locked hl]
    refine ⟨keysNodup_mapDelete id hnd, ?_⟩
    intro L hL
    obtain ⟨t, ht, hpre, huniq⟩ := hinv L hL
    refine ⟨t, mem_mapDelete.2 ⟨ht, ?_⟩, hpre, ?_⟩
    · intro hk
      exact hl (hk ▸ hL)
    · intro p hp hppre
      exact huniq p (mem_mapDelete.1 hp).1 hppre

theorem good_key {s : EngineState} (c : Char)
    (ih : KeysNodup s ∧ LockInv s) :
    KeysNodup (processKey s c).1 ∧ LockInv (processKey s c).1 := by
  obtain ⟨hnd, hinv⟩ := ih
  by_cases halpha : 'a' ≤ c.toLower ∧ c.toLower ≤ 'z'
  · rcases hc : candidates s.targets (s.buffer ++ [c.toLower]) with
      _ | ⟨⟨id, t⟩, _ | ⟨q, rest⟩⟩
    · rw [processKey_nil halpha hc]
      exact ⟨hnd, lockInv_of_none rfl⟩
    · by_cases hlen : t.word.length ≤ (s.buffer ++ [c.toLower]).length
      · rw [processKey_completion halpha hc hlen]
        exact ⟨keysNodup_mapDelete id hnd, lockInv_of_none rfl⟩
      · rw [processKey_single halpha hc hlen]
        refine ⟨hnd, ?_⟩
        intro L hL
        have hid : id = L := by simpa using hL
        subst hid
        have hmem : ((id, t) : String × Target) ∈
            candidates s.targets (s.buffer ++ [c.toLower]) := by
          rw [hc]; simp
        obtain ⟨hmem', hpre⟩ := mem_candidates.1 hmem
        refine ⟨t, hmem', hpre, ?_⟩
        intro p hp hppre
        have hmemp : p ∈ candidates s.targets (s.buffer ++ [c.toLower]) :=
          mem_candidates.2 ⟨hp, hppre⟩
        rw [hc] at hmemp
        rcases List.mem_singleton.1 hmemp with rfl
        rfl
    · rw [processKey_multi halpha hc]
      refine ⟨hnd, ?_⟩
      intro L hL
      exfalso
      obtain ⟨t0, ht0, hpre0, huniq⟩ := hinv L hL
      have hpmem : ((id, t) : String × Target) ∈
          candidates s.targets (s.buffer ++ [c.toLower]) := by
        rw [hc]; simp
      have hqmem : q ∈ candidates s.targets (s.buffer ++ [c.toLower]) := by
        rw [hc]; simp
      have hpre : s.buffer <+: s.buffer ++ [c.toLower] :=
        List.prefix_append ..
      have h1 : id = L :=
        huniq _ (mem_candidates.1 hpmem).1
          (hpre.trans (mem_candidates.1 hpmem).2)
      have h2 : q.1 = L :=
        huniq _ (mem_candidates.1 hqmem).1
          (hpre.trans (mem_candidates.1 hqmem).2)
      have hndc :=
        @keysNodup_candidates s.targets (s.buffer ++ [c.toLower]) hnd
      rw [hc] at hndc
      simp only [List.map_cons, List.nodup_cons] at hndc
      exact hndc.1 (List.mem_cons.2 (Or.inl (h1.trans h2.symm)))
  · rw [processKey_not_alpha halpha]
    exact ⟨hnd, hinv⟩

theorem good_back {s : EngineState} (ih : KeysNodup s ∧ LockInv s) :
    KeysNodup (backspace s).1 ∧ LockInv (backspace s).1 := by
  obtain ⟨hnd, hinv⟩ := ih
  by_cases hne : s.buffer = []
  · rw [backspace_empty hne]
    exact ⟨hnd, hinv⟩
  · rcases hc : candidates s.targets s.buffer.dropLast with
      _ | ⟨⟨id, t⟩, _ | ⟨q, rest⟩⟩
    · rw [backspace_nil hne hc]
      exact ⟨hnd, lockInv_of_none rfl⟩
    · by_cases hlen : t.word.length ≤ s.buffer.dropLast.length
      · rw [backspace_completion hne hc hlen]
        exact ⟨keysNodup_mapDelete id hnd, lockInv_of_none rfl⟩
      · rw [backspace_single hne hc hlen]
        refine ⟨hnd, ?_⟩
        intro L hL
        have hid : id = L := by simpa using hL
        subst hid
        have hmem : ((id, t) : String × Target) ∈
            candidates s.targets s.buffer.dropLast := by
          rw [hc]; simp
        obtain ⟨hmem', hpre⟩ := mem_candidates.1 hmem
        refine ⟨t, hmem', hpre, ?_⟩
        intro p hp hppre
        have hmemp : p ∈ candidates s.targets s.buffer.dropLast :=
          mem_candidates.2 ⟨hp, hppre⟩
        rw [hc] at hmemp
        rcases List.mem_singleton.1 hmemp with rfl
        rfl
    · rw [backspace_multi hne hc]
      exact ⟨hnd, lockInv_of_none rfl⟩

theorem good_reset {s : EngineState} (ih : KeysNodup s ∧ LockInv s) :
    KeysNodup (resetState s).1 ∧ LockInv (resetState s).1 :=
  ⟨ih.1, lockInv_of_none rfl⟩

theorem reachable_good {s : EngineState} (h : ReachableR s) :
    KeysNodup s ∧ LockInv s := by
  induction h with
  | init => exact ⟨List.nodup_nil, lockInv_of_none rfl⟩
  | add id word _ hlock ih => exact good_add id word ih hlock
  | remove id _ ih => exact good_remove id ih
  | key c _ ih => exact good_key c ih
  | back _ ih => exact good_back ih
  | reset _ ih => exact good_reset ih

/-! ### Claim theorems: typing engine -/

/-- C1 (amended): for every state reachable by call sequences in which
`addTarget` is invoked only while `currentTargetId` is null, a non-null
`currentTargetId` implies the buffer is a prefix of the locked target's
word.  As originally stated, over all call sequences, the claim fails:
registering new matching targets while a lock is held makes the lock stale
(see `prefix_invariant_counterexample`). -/
theorem locked_buffer_prefix_of_add_unlocked (s : EngineState)
    (hs : ReachableR s) (L : String) (t : Target)
    (hL : s.currentTargetId = some L) (ht : (L, t) ∈ s.targets) :
    s.buffer <+: t.word := by
  obtain ⟨hnd, hinv⟩ := reachable_good hs
  obtain ⟨t0, ht0, hpre, _⟩ := hinv L hL
  rwa [mem_keysNodup_eq hnd ht ht0]

/-- Witness: after registering "ab" and typing 'a' the engine is locked on
"t1" and the buffer is a prefix of its word. -/
theorem locked_buffer_prefix_witness :
    (processKey (addTarget initEngine "t1" "ab".toList) 'a').1.buffer <+:
      (Target.mk "ab".toList "ab".toList).word :=
  locked_buffer_prefix_of_add_unlocked _
    (ReachableR.key 'a' (ReachableR.add "t1" "ab".toList ReachableR.init rfl))
    "t1" ⟨"ab".toList, "ab".toList⟩ (by decide) (by decide)

/-- C1 counterexample: register "ab", type 'a' (locks "t1"), register "ac"
and "acd" while locked, type 'c'.  The two-candidate branch of `processKey`
leaves the stale lock on "t1" while the buffer "ac" is not a prefix of
"t1"'s word "ab". -/
theorem prefix_invariant_counterexample :
    (runOps initEngine
        [.add "t1" "ab".toList, .key 'a', .add "t2" "ac".toList,
         .add "t3" "acd".toList, .key 'c']).currentTargetId = some "t1" ∧
    ("t1", Target.mk "ab".toList "ab".toList) ∈
      (runOps initEngine
        [.add "t1" "ab".toList, .key 'a', .add "t2" "ac".toList,
         .add "t3" "acd".toList, .key 'c']).targets ∧
    ¬ (runOps initEngine
        [.add "t1" "ab".toList, .key 'a', .add "t2" "ac".toList,
         .add "t3" "acd".toList, .key 'c']).buffer <+:
        (Target.mk "ab".toList "ab".toList).word := by
  decide

/-- C2 (amended): under call sequences in which `addTarget` is invoked only
while unlocked, whenever `currentTargetId` is non-null the locked target is
the unique live target whose word starts with the buffer.  As originally
stated the claim fails: the lock need not be null when the buffer is empty
(see `lock_with_empty_buffer_counterexample`, where backspace re-locks the
single live target on an empty buffer). -/
theorem locked_unique_candidate_of_add_unlocked (s : EngineState)
    (hs : ReachableR s) (L : String)
    (hL : s.currentTargetId = some L) :
    (candidates s.targets s.buffer).map Prod.fst = [L] := by
  obtain ⟨hnd, hinv⟩ := reachable_good hs
  obtain ⟨t0, ht0, hpre, huniq⟩ := hinv L hL
  have hmem : (L, t0) ∈ candidates s.targets s.buffer :=
    mem_candidates.2 ⟨ht0, hpre⟩
  refine nodup_all_eq_singleton ?_ (keysNodup_candidates hnd) ?_
  · intro h0
    have hLmem : L ∈ (candidates s.targets s.buffer).map Prod.fst :=
      List.mem_map.2 ⟨(L, t0), hmem, rfl⟩
    rw [h0] at hLmem
    cases hLmem
  · intro x hx
    obtain ⟨p, hp, rfl⟩ := List.mem_map.1 hx
    exact huniq p (mem_candidates.1 hp).1 (mem_candidates.1 hp).2

/-- Witness: after registering "cat" and typing 'c' the locked target "t1"
is the unique candidate of the buffer. -/
theorem locked_unique_candidate_witness :
    (candidates
        (processKey (addTarget initEngine "t1" "cat".toList) 'c').1.targets
        (processKey (addTarget initEngine "t1" "cat".toList) 'c').1.buffer).map
      Prod.fst = ["t1"] :=
  locked_unique_candidate_of_add_unlocked _
    (ReachableR.key 'c' (ReachableR.add "t1" "cat".toList ReachableR.init rfl))
    "t1" (by decide)

/-- C2 counterexample: register "ab", type 'a' (locks "t1"), backspace.
With the buffer back to empty, the single live target matches the empty
buffer, so `backspace`'s one-candidate branch re-locks "t1": the lock is
non-null while the buffer is empty. -/
theorem lock_with_empty_buffer_counterexample :
    (runOps initEngine
        [.add "t1" "ab".toList, .key 'a', .back]).buffer = [] ∧
    (runOps initEngine
        [.add "t1" "ab".toList, .key 'a', .back]).currentTargetId =
      some "t1" := by
  decide

/-- C3: a valid alphabetic keystroke whose extended buffer matches no live
target makes `processKey` emit `onMistake(char)` and then fully reset,
emitting `onReset`: afterwards the buffer is empty and the lock is null,
and no exception is raised (the embedding is a total function). -/
theorem deadend_mistake_then_reset (s : EngineState) (key : Char)
    (halpha : 'a' ≤ key.toLower ∧ key.toLower ≤ 'z')
    (hc : candidates s.targets (s.buffer ++ [key.toLower]) = []) :
    processKey s key =
      (⟨s.targets, none, 0, []⟩, [.onMistake key.toLower, .onReset]) :=
  processKey_nil halpha hc

/-- Witness: with live target "dog" and buffer "d", the keystroke 'x' is a
dead end: `onMistake 'x'` then `onReset`, buffer empty, lock null. -/
theorem deadend_mistake_then_reset_witness :
    processKey
        (⟨[("t1", ⟨"dog".toList, "dog".toList⟩)], some "t1", 1,
          "d".toList⟩ : EngineState) 'x' =
      (⟨[("t1", ⟨"dog".toList, "dog".toList⟩)], none, 0, []⟩,
       [.onMistake 'x'.toLower, .onReset]) :=
  deadend_mistake_then_reset _ 'x' (by decide) (by decide)

/-- C4: whenever `processKey` (or `backspace`) brings the progress index —
the new buffer length — up to the full length of the uniquely matching
target's word, `onComplete(id, originalWord)` is emitted, and afterwards
that id is absent from the live target set, the buffer is empty, and the
lock is null. -/
theorem completion_clears_target :
    (∀ (s : EngineState) (key : Char) (id : String) (t : Target),
      ('a' ≤ key.toLower ∧ key.toLower ≤ 'z') →
      candidates s.targets (s.buffer ++ [key.toLower]) = [(id, t)] →
      t.word.length ≤ (s.buffer ++ [key.toLower]).length →
      Ev.onComplete id t.originalWord ∈ (processKey s key).2 ∧
      mapGet (processKey s key).1.targets id = none ∧
      (processKey s key).1.buffer = [] ∧
      (processKey s key).1.currentTargetId = none) ∧
    (∀ (s : EngineState) (id : String) (t : Target),
      s.buffer ≠ [] →
      candidates s.targets s.buffer.dropLast = [(id, t)] →
      t.word.length ≤ s.buffer.dropLast.length →
      Ev.onComplete id t.originalWord ∈ (backspace s).2 ∧
      mapGet (backspace s).1.targets id = none ∧
      (backspace s).1.buffer = [] ∧
      (backspace s).1.currentTargetId = none) := by
  constructor
  · intro s key id t halpha hc hlen
    rw [processKey_completion halpha hc hlen]
    exact ⟨by simp, mapGet_mapDelete s.targets id, rfl, rfl⟩
  · intro s id t hne hc hlen
    rw [backspace_completion hne hc hlen]
    exact ⟨by simp, mapGet_mapDelete s.targets id, rfl, rfl⟩

/-- Witness: typing 't' with live target "cat" and buffer "ca" completes
the word; afterwards "t1" is gone, the buffer is empty, the lock is null. -/
theorem completion_clears_target_witness :
    Ev.onComplete "t1" (Target.mk "cat".toList "cat".toList).originalWord ∈
      (processKey (⟨[("t1", ⟨"cat".toList, "cat".toList⟩)], none, 0,
        "ca".toList⟩ : EngineState) 't').2 ∧
    mapGet (processKey (⟨[("t1", ⟨"cat".toList, "cat".toList⟩)], none, 0,
        "ca".toList⟩ : EngineState) 't').1.targets "t1" = none ∧
    (processKey (⟨[("t1", ⟨"cat".toList, "cat".toList⟩)], none, 0,
        "ca".toList⟩ : EngineState) 't').1.buffer = [] ∧
    (processKey (⟨[("t1", ⟨"cat".toList, "cat".toList⟩)], none, 0,
        "ca".toList⟩ : EngineState) 't').1.currentTargetId = none :=
  completion_clears_target.1
    ⟨[("t1", ⟨"cat".toList, "cat".toList⟩)], none, 0, "ca".toList⟩ 't'
    "t1" ⟨"cat".toList, "cat".toList⟩ (by decide) (by decide) (by decide)

/-- C5: `backspace` never emits the `onMistake` signal, for any state — in
particular its zero-candidate branch only resets. -/
theorem backspace_never_emits_mistake (s : EngineState) (c : Char) :
    Ev.onMistake c ∉ (backspace s).2 := by
  by_cases hne : s.buffer = []
  · rw [backspace_empty hne]
    simp
  · rcases hc : candidates s.targets s.buffer.dropLast with
      _ | ⟨⟨id, t⟩, _ | ⟨q, rest⟩⟩
    · rw [backspace_nil hne hc]
      simp
    · by_cases hlen : t.word.length ≤ s.buffer.dropLast.length
      · rw [backspace_completion hne hc hlen]
        simp
      · rw [backspace_single hne hc hlen]
        simp
    · rw [backspace_multi hne hc]
      simp

/-- C9: every word completion via `processKey` emits `onReset` twice within
that single call: once from the implicit reset inside `removeTarget` (the
completed target is the locked target when it is removed) and once from the
explicit `resetState` call that follows. -/
theorem completion_emits_onReset_twice (s : EngineState) (key : Char)
    (id : String) (w : List Char)
    (h : Ev.onComplete id w ∈ (processKey s key).2) :
    (processKey s key).2.count Ev.onReset = 2 := by
  by_cases halpha : 'a' ≤ key.toLower ∧ key.toLower ≤ 'z'
  · rcases hc : candidates s.targets (s.buffer ++ [key.toLower]) with
      _ | ⟨⟨id0, t⟩, _ | ⟨q, rest⟩⟩
    · rw [processKey_nil halpha hc] at h
      simp at h
    · by_cases hlen : t.word.length ≤ (s.buffer ++ [key.toLower]).length
      · rw [processKey_completion halpha hc hlen]
        simp [List.count_cons]
      · rw [processKey_single halpha hc hlen] at h
        simp at h
    · rw [processKey_multi halpha hc] at h
      simp at h
  · rw [processKey_not_alpha halpha] at h
    simp at h

/-- Witness: completing "dog" emits `onReset` twice in the one call. -/
theorem completion_emits_onReset_twice_witness :
    Ev.onComplete "t2" "dog".toList ∈
      (processKey (⟨[("t2", ⟨"dog".toList, "dog".toList⟩)], none, 0,
        "do".toList⟩ : EngineState) 'g').2 ∧
    (processKey (⟨[("t2", ⟨"dog".toList, "dog".toList⟩)], none, 0,
      "do".toList⟩ : EngineState) 'g').2.count Ev.onReset = 2 :=
  ⟨by decide,
   completion_emits_onReset_twice _ 'g' "t2" "dog".toList (by decide)⟩

/-! ### Claim theorems: score ledger and difficulty curve -/

theorem handleWordComplete_fields (s : ScoreState) (w d : String) :
    (handleWordComplete s w d).2 =
      (⌊((w.length * 10 : ℕ) : ℚ) * getDifficultyMultiplier d *
          (s.multiplier : ℚ)⌋).toNat ∧
    (handleWordComplete s w d).1.score =
      s.score + (handleWordComplete s w d).2 ∧
    (handleWordComplete s w d).1.streak = s.streak + 1 ∧
    (handleWordComplete s w d).1.multiplier = min 5 (1 + (s.streak + 1) / 5) ∧
    (handleWordComplete s w d).1.wordsTyped = s.wordsTyped + 1 ∧
    (handleWordComplete s w d).1.charsTyped = s.charsTyped + w.length ∧
    (handleWordComplete s w d).1.mistakes = s.mistakes := by
  refine ⟨rfl, rfl, rfl, ?_, rfl, rfl, rfl⟩
  show (if 1 + (s.streak + 1) / 5 > 5 then 5 else 1 + (s.streak + 1) / 5) = _
  split <;> omega

/-- C6: `handleWordComplete(word, tier)` awards exactly
`floor(len(word) · 10 · tierMultiplier · currentMultiplier)` points, with
tierMultiplier 1, 3/2, 2 for easy/moderate/hard and currentMultiplier the
multiplier before the completion; it adds them to the score, increments the
streak, recomputes `multiplier = min 5 (1 + streak/5)`, and increments
`wordsTyped` by 1 and `charsTyped` by the word length.  On a fresh ledger,
completing "rocket" at tier moderate yields 90 points, score 90, streak 1,
multiplier 1. -/
theorem score_formula :
    (∀ (s : ScoreState) (w d : String) (q : ℚ),
      (d = "easy" ∧ q = 1) ∨ (d = "moderate" ∧ q = 3 / 2) ∨
        (d = "hard" ∧ q = 2) →
      (handleWordComplete s w d).2 =
          (⌊(w.length : ℚ) * 10 * q * (s.multiplier : ℚ)⌋).toNat ∧
      (handleWordComplete s w d).1.score =
          s.score + (⌊(w.length : ℚ) * 10 * q * (s.multiplier : ℚ)⌋).toNat ∧
      (handleWordComplete s w d).1.streak = s.streak + 1 ∧
      (handleWordComplete s w d).1.multiplier =
          min 5 (1 + (s.streak + 1) / 5) ∧
      (handleWordComplete s w d).1.wordsTyped = s.wordsTyped + 1 ∧
      (handleWordComplete s w d).1.charsTyped = s.charsTyped + w.length) ∧
    handleWordComplete (resetScore 0) "rocket" "moderate" =
      (⟨90, 1, 1, 1, 6, 0, 0, none⟩, 90) := by
  constructor
  · rintro s w d q hdq
    have hbonus : getDifficultyMultiplier d = q := by
      rcases hdq with ⟨rfl, rfl⟩ | ⟨rfl, rfl⟩ | ⟨rfl, rfl⟩ <;>
        simp [getDifficultyMultiplier]
    have hcast : ((w.length * 10 : ℕ) : ℚ) = (w.length : ℚ) * 10 := by
      push_cast
      ring
    obtain ⟨h1, h2, h3, h4, h5, h6, _⟩ := handleWordComplete_fields s w d
    rw [hbonus, hcast] at h1
    refine ⟨h1, ?_, h3, h4, h5, h6⟩
    rw [h2, h1]
  · simp only [handleWordComplete, resetScore, getDifficultyMultiplier,
      increaseStreak, String.length]
    norm_num [show ("moderate" = "hard") = False by simp]
    decide

/-- Witness for the quantified part of `score_formula`, at the fresh-ledger
"rocket"/moderate input. -/
theorem score_formula_witness :
    (handleWordComplete (resetScore 0) "rocket" "moderate").1.streak =
        (resetScore 0).streak + 1 ∧
    (handleWordComplete (resetScore 0) "rocket" "moderate").1.multiplier =
        min 5 (1 + ((resetScore 0).streak + 1) / 5) :=
  ⟨(score_formula.1 (resetScore 0) "rocket" "moderate" (3 / 2)
      (Or.inr (Or.inl ⟨rfl, rfl⟩))).2.2.1,
   (score_formula.1 (resetScore 0) "rocket" "moderate" (3 / 2)
      (Or.inr (Or.inl ⟨rfl, rfl⟩))).2.2.2.1⟩

/-- C7: `handleWordComplete` never decreases the score; `handleMistake`
leaves the score unchanged while unconditionally zeroing the streak,
resetting the multiplier to 1 and incrementing the mistakes counter. -/
theorem score_monotone_and_mistake :
    (∀ (s : ScoreState) (w d : String),
        s.score ≤ (handleWordComplete s w d).1.score) ∧
    (∀ s : ScoreState,
        (handleMistake s).score = s.score ∧ (handleMistake s).streak = 0 ∧
        (handleMistake s).multiplier = 1 ∧
        (handleMistake s).mistakes = s.mistakes + 1) :=
  ⟨fun s w d => by
      show s.score ≤ s.score + _
      exact Nat.le_add_right s.score _,
   fun s => ⟨rfl, rfl, rfl, rfl⟩⟩

/-- C10: `getSessionStats` reports the streak counter's current value as
`maxStreak`, not the maximum streak reached in the session: a word
completion followed by a mistake yields `maxStreak = 0` although the streak
was positive in between. -/
theorem sessionStats_maxStreak_is_current :
    (∀ (s : ScoreState) (now : ℚ),
        (getSessionStats s now).maxStreak = s.streak) ∧
    0 < (handleWordComplete (resetScore 0) "cat" "easy").1.streak ∧
    (getSessionStats
        (handleMistake (handleWordComplete (resetScore 0) "cat" "easy").1)
        0).maxStreak = 0 := by
  refine ⟨fun s now => rfl, ?_, rfl⟩
  show 0 < 0 + 1
  omega

/-- C8: with the source's configuration constants,
`getSpawnInterval(level) = max(minInterval, base − (level−1)·step)`, is
non-increasing in the level and bounded below by `minInterval`; and
`getEnemySpeed(level) = base + (level−1)·step` is non-decreasing. -/
theorem difficulty_monotone :
    (∀ l : ℕ, 1 ≤ l →
      getSpawnInterval defaultConfig l =
        max defaultConfig.minSpawnInterval
          (defaultConfig.baseSpawnInterval -
            ((l : ℚ) - 1) * defaultConfig.intervalDecrement)) ∧
    (∀ l l' : ℕ, 1 ≤ l → l ≤ l' →
      getSpawnInterval defaultConfig l' ≤ getSpawnInterval defaultConfig l) ∧
    (∀ l : ℕ, 1 ≤ l →
      defaultConfig.minSpawnInterval ≤ getSpawnInterval defaultConfig l) ∧
    (∀ l : ℕ, 1 ≤ l →
      getEnemySpeed defaultConfig l =
        defaultConfig.baseEnemySpeed +
          ((l : ℚ) - 1) * defaultConfig.speedIncrement) ∧
    (∀ l l' : ℕ, 1 ≤ l → l ≤ l' →
      getEnemySpeed defaultConfig l ≤ getEnemySpeed defaultConfig l') := by
  refine ⟨fun l _ => max_comm .., fun l l' _ h12 => ?_, fun l _ => ?_,
    fun l _ => rfl, fun l l' _ h12 => ?_⟩
  · have hcast : (l : ℚ) ≤ (l' : ℚ) := by exact_mod_cast h12
    unfold getSpawnInterval
    refine max_le_max ?_ le_rfl
    have : ((l : ℚ) - 1) * defaultConfig.intervalDecrement ≤
        ((l' : ℚ) - 1) * defaultConfig.intervalDecrement := by
      simp only [defaultConfig]
      linarith
    linarith
  · exact le_max_right ..
  · have hcast : (l : ℚ) ≤ (l' : ℚ) := by exact_mod_cast h12
    unfold getEnemySpeed
    simp only [defaultConfig]
    linarith

/-- Witness for `difficulty_monotone` at levels 1 and 2. -/
theorem difficulty_monotone_witness :
    getSpawnInterval defaultConfig 2 ≤ getSpawnInterval defaultConfig 1 ∧
    getEnemySpeed defaultConfig 1 ≤ getEnemySpeed defaultConfig 2 :=
  ⟨difficulty_monotone.2.1 1 2 (by norm_num) (by norm_num),
   difficulty_monotone.2.2.2.2 1 2 (by norm_num) (by norm_num)⟩

end Asteroids
